import Mathlib

/-!
Verification of the payment-engine ledger (src/src/domain.rs, src/src/lib.rs).

The Rust code is shallowly embedded: the pure account operations of
`domain.rs` become Lean functions on a structure `Account`; the processing
loop of `lib.rs::process` becomes a fold `processRecords` over a list of
already-decoded records (CSV decoding is an external collaborator, out of
scope per the specification).  Rust `HashMap` becomes an association list
with insert-or-replace and in-place-update operations; iteration order of
the map is never observed by the properties below.  The `i64` field of
`Amount` is modelled as unbounded `Int` (addition and subtraction are not
overflow-checked in the source); the one place where 64-bit width is
observable, the saturating `as i64` cast inside `Amount::try_from_f64`,
is modelled explicitly with the `i64` bounds.  `f64` inputs are modelled
as an inductive `F64`: NaN, the two infinities, or a finite value carried
as an exact rational (the binary rounding of `f64` literals is abstracted;
the specification speaks of decimal values throughout).  The panicking
`.expect` in the dispute branch of `process` is modelled by `Except`:
`Except.error ProcessError.missingAccount` is the fatal abort.
-/

/-! ## Amount (domain.rs lines 10-66) -/

/-- `DECIMALS_PRECISION` from domain.rs: amounts carry 4 fractional digits. -/
def DECIMALS_PRECISION : Nat := 4

/-- The scaling factor `10u32.pow(DECIMALS_PRECISION)` = 10000. -/
def scaleFactor : Int := (10 : Int) ^ DECIMALS_PRECISION

/-- Largest `i64` value, the saturation bound of the Rust float-to-int cast. -/
def I64MAX : Int := 9223372036854775807

/-- Smallest `i64` value. -/
def I64MIN : Int := -9223372036854775808

/-- Model of Rust `f64` inputs: NaN, infinities, or an exact finite value.
Finite values are carried as rationals; binary representation error of
`f64` is abstracted away, matching the decimal values of the spec. -/
inductive F64 where
  | nan : F64
  | inf : F64
  | neginf : F64
  | finite (q : ℚ) : F64
deriving DecidableEq

/-- Truncation toward zero of a rational, as Rust `f64::trunc` acts on a
finite value: T-division of numerator by denominator. -/
def truncTowardZero (q : ℚ) : Int :=
  Int.tdiv q.num (q.den : Int)

/-- `value * 10_000f64` (domain.rs line 30); multiplication by the positive
constant keeps NaN and the infinities in place. -/
def F64.mulScale : F64 → F64
  | .nan => .nan
  | .inf => .inf
  | .neginf => .neginf
  | .finite q => .finite (q * (scaleFactor : ℚ))

/-- `.trunc()` on the product (domain.rs line 30). -/
def F64.trunc : F64 → F64
  | .nan => .nan
  | .inf => .inf
  | .neginf => .neginf
  | .finite q => .finite ((truncTowardZero q : Int) : ℚ)

/-- Rust saturating cast `as i64` (domain.rs line 32): NaN goes to 0,
infinities and out-of-range values clamp to the `i64` bounds, in-range
finite values truncate toward zero. -/
def F64.castToI64 : F64 → Int
  | .nan => 0
  | .inf => I64MAX
  | .neginf => I64MIN
  | .finite q =>
    let n := truncTowardZero q
    if n < I64MIN then I64MIN else if I64MAX < n then I64MAX else n

/-- The error taxonomy of the spec for the `Amount` constructor.  The
source returns `Box<dyn Error>`; the spec names the variant `InvalidAmount`. -/
inductive AmountError where
  | InvalidAmount : AmountError
deriving DecidableEq

/-- Fixed-point monetary value (domain.rs lines 15-18): a scaled `i64`,
modelled as unbounded `Int` (add/sub are not overflow-checked in the source). -/
structure Amount where
  inner : Int
deriving DecidableEq

/-- `Amount::try_from_f64` (domain.rs lines 29-34):
`let amount = (value * 10u32.pow(DECIMALS_PRECISION) as f64).trunc();
 Ok(Self { inner: amount as i64 })`.
Note that the source returns `Ok` unconditionally. -/
def Amount.try_from_f64 (value : F64) : Except AmountError Amount :=
  .ok ⟨(value.mulScale.trunc).castToI64⟩

/-- `Amount::as_f64` (domain.rs lines 36-38): `inner as f64 / 10000f64`,
exact in the rational model. -/
def Amount.as_f64 (a : Amount) : F64 :=
  .finite ((a.inner : ℚ) / (scaleFactor : ℚ))

instance : Add Amount := ⟨fun a b => ⟨a.inner + b.inner⟩⟩

instance : Sub Amount := ⟨fun a b => ⟨a.inner - b.inner⟩⟩

instance : LT Amount := ⟨fun a b => a.inner < b.inner⟩

instance (a b : Amount) : Decidable (a < b) :=
  inferInstanceAs (Decidable (a.inner < b.inner))

/-- `Amount::default()` is zero. -/
def Amount.zero : Amount := ⟨0⟩

/-- The truncation of a decimal value at 4 fractional digits, written from
the words of the spec (section 8, round-trip property): scale by 10^4,
truncate toward zero, scale back.  Used only to compare the behaviour of
the code with the spec. -/
def specTruncatedAt4 (q : ℚ) : ℚ :=
  ((truncTowardZero (q * (scaleFactor : ℚ)) : Int) : ℚ) / (scaleFactor : ℚ)

/-! ## Records and accounts (domain.rs lines 68-228) -/

/-- Client identifier, `u16` in the source; an opaque key here. -/
abbrev ClientID := Nat

/-- Transaction identifier, `u32` in the source; an opaque key here. -/
abbrev TxnID := Nat

inductive TxnRecordKind where
  | Deposit : TxnRecordKind
  | Withdrawal : TxnRecordKind
deriving DecidableEq

/-- Dispute state of a stored transaction (domain.rs lines 75-81);
`Undisputed` is the serde default, the only value ever deserialized. -/
inductive TxnState where
  | Undisputed : TxnState
  | Disputed : TxnState
  | Reversed : TxnState
deriving DecidableEq

/-- One deposit or withdrawal record (domain.rs lines 83-101).  The `state`
field is `#[serde(skip)]` with default `Undisputed`, so every record that
arrives from the decoder has `state = Undisputed`. -/
structure TxnRecord where
  kind : TxnRecordKind
  client : ClientID
  tx : TxnID
  amount : Amount
  state : TxnState
deriving DecidableEq

inductive DisputeRecordKind where
  | Dispute : DisputeRecordKind
  | Resolve : DisputeRecordKind
  | ChargeBack : DisputeRecordKind
deriving DecidableEq

/-- One dispute-family record (domain.rs lines 111-121): no amount, a
reference to a transaction. -/
structure DisputeRecord where
  kind : DisputeRecordKind
  client : ClientID
  tx : TxnID
deriving DecidableEq

/-- `RecordInner` (domain.rs lines 129-134): a record is either a
transaction record or a dispute record. -/
inductive Record where
  | txn (r : TxnRecord) : Record
  | dispute (d : DisputeRecord) : Record
deriving DecidableEq

/-- Client account (domain.rs lines 151-174). -/
structure Account where
  client : ClientID
  available : Amount
  held : Amount
  total : Amount
  locked : Bool
deriving DecidableEq

/-- `Account::new` (domain.rs lines 177-185). -/
def Account.new (client : ClientID) : Account :=
  { client := client
    available := Amount.zero
    held := Amount.zero
    total := Amount.zero
    locked := false }

/-- `Account::deposit` (domain.rs lines 188-191). -/
def Account.deposit (a : Account) (amount : Amount) : Account :=
  { a with available := a.available + amount, total := a.total + amount }

/-- `Account::withdraw` (domain.rs lines 199-206): returns the success flag
and the (possibly unchanged) account. -/
def Account.withdraw (a : Account) (amount : Amount) : Bool × Account :=
  if a.available < amount then
    (false, a)
  else
    (true, { a with available := a.available - amount, total := a.total - amount })

/-- `Account::hold` (domain.rs lines 208-211): no sufficiency check. -/
def Account.hold (a : Account) (amount : Amount) : Account :=
  { a with available := a.available - amount, held := a.held + amount }

/-- `Account::resolve` (domain.rs lines 214-217). -/
def Account.resolve (a : Account) (amount : Amount) : Account :=
  { a with held := a.held - amount, available := a.available + amount }

/-- `Account::charge_back` (domain.rs lines 220-223). -/
def Account.charge_back (a : Account) (amount : Amount) : Account :=
  { a with held := a.held - amount, total := a.total - amount }

/-- `Account::lock` (domain.rs lines 225-227). -/
def Account.lock (a : Account) : Account :=
  { a with locked := true }

/-! ## Association-list model of the two HashMaps of lib.rs -/

/-- Lookup in an association list, as `HashMap::get`. -/
def alistLookup {α : Type} : List (Nat × α) → Nat → Option α
  | [], _ => none
  | (k, v) :: t, key => if k = key then some v else alistLookup t key

/-- Insert-or-replace, as `HashMap::insert`. -/
def alistInsert {α : Type} : List (Nat × α) → Nat → α → List (Nat × α)
  | [], key, val => [(key, val)]
  | (k, v) :: t, key, val =>
    if k = key then (key, val) :: t else (k, v) :: alistInsert t key val

/-- In-place update of the value at a key, if present, as mutation through
`HashMap::get_mut`; absent keys leave the list unchanged. -/
def alistUpdate {α : Type} (f : α → α) : List (Nat × α) → Nat → List (Nat × α)
  | [], _ => []
  | (k, v) :: t, key =>
    if k = key then (k, f v) :: t else (k, v) :: alistUpdate f t key

/-! ## The ledger state machine (lib.rs lines 28-148) -/

/-- The two maps owned by `process` (lib.rs lines 36-37). -/
structure LedgerState where
  txns : List (TxnID × TxnRecord)
  accounts : List (ClientID × Account)
deriving DecidableEq

/-- The empty state at the start of a run. -/
def initState : LedgerState := { txns := [], accounts := [] }

/-- The fatal conditions of a run: the `.expect` panic in the dispute
branches of `process` (lib.rs lines 106-108, 119-121, 131-133), raised
when a dispute-family record names a client with no account. -/
inductive ProcessError where
  | missingAccount : ProcessError
deriving DecidableEq

/-- Processing of one `TxnRecord` (lib.rs lines 47-86).  A locked account
makes the loop `continue`, which also skips the `txns.insert` on line 85;
on every other path the record is stored in the transaction map. -/
def processTxn (s : LedgerState) (r : TxnRecord) : LedgerState :=
  match r.kind with
  | .Deposit =>
    match alistLookup s.accounts r.client with
    | some account =>
      if account.locked then
        s
      else
        { txns := alistInsert s.txns r.tx r
          accounts := alistUpdate (fun a => a.deposit r.amount) s.accounts r.client }
    | none =>
        { txns := alistInsert s.txns r.tx r
          accounts := alistInsert s.accounts r.client ((Account.new r.client).deposit r.amount) }
  | .Withdrawal =>
    match alistLookup s.accounts r.client with
    | some account =>
      if account.locked then
        s
      else
        { txns := alistInsert s.txns r.tx r
          accounts := alistUpdate (fun a => (a.withdraw r.amount).2) s.accounts r.client }
    | none =>
        { txns := alistInsert s.txns r.tx r
          accounts := alistInsert s.accounts r.client (Account.new r.client) }

/-- Processing of one `DisputeRecord` (lib.rs lines 87-139).  An unknown
transaction id is a no-op; a state that does not permit the operation is a
no-op; a permitted operation whose client has no account panics
(`.expect`), modelled as `Except.error`. -/
def processDispute (s : LedgerState) (d : DisputeRecord) : Except ProcessError LedgerState :=
  match alistLookup s.txns d.tx with
  | none => .ok s
  | some txn =>
    match d.kind with
    | .Dispute =>
      if txn.state = .Undisputed then
        match alistLookup s.accounts d.client with
        | none => .error .missingAccount
        | some _ =>
          .ok { txns := alistUpdate (fun t => { t with state := .Disputed }) s.txns d.tx
                accounts := alistUpdate (fun a => a.hold txn.amount) s.accounts d.client }
      else .ok s
    | .Resolve =>
      if txn.state = .Disputed then
        match alistLookup s.accounts d.client with
        | none => .error .missingAccount
        | some _ =>
          .ok { txns := alistUpdate (fun t => { t with state := .Undisputed }) s.txns d.tx
                accounts := alistUpdate (fun a => a.resolve txn.amount) s.accounts d.client }
      else .ok s
    | .ChargeBack =>
      if txn.state = .Disputed then
        match alistLookup s.accounts d.client with
        | none => .error .missingAccount
        | some _ =>
          .ok { txns := alistUpdate (fun t => { t with state := .Reversed }) s.txns d.tx
                accounts := alistUpdate (fun a => (a.charge_back txn.amount).lock) s.accounts d.client }
      else .ok s

/-- One iteration of the processing loop (lib.rs lines 46-140). -/
def processRecord (s : LedgerState) : Record → Except ProcessError LedgerState
  | .txn r => .ok (processTxn s r)
  | .dispute d => processDispute s d

/-- The whole loop of `process`: fold the records in delivered order,
stopping at the first fatal condition. -/
def processRecords : List Record → LedgerState → Except ProcessError LedgerState
  | [], s => .ok s
  | r :: rest, s =>
    match processRecord s r with
    | .ok s2 => processRecords rest s2
    | .error e => .error e

/-- Which transaction state permits each dispute-family operation
(lib.rs lines 100, 113, 126). -/
def permitsKind (k : DisputeRecordKind) (st : TxnState) : Prop :=
  match k with
  | .Dispute => st = .Undisputed
  | .Resolve => st = .Disputed
  | .ChargeBack => st = .Disputed


/-! ## Helper lemmas on the association-list operations -/

@[simp]
theorem alistLookup_insert {α : Type} (l : List (Nat × α)) (k key : Nat) (v : α) :
    alistLookup (alistInsert l k v) key = if k = key then some v else alistLookup l key := by
  induction l with
  | nil => simp [alistInsert, alistLookup]
  | cons p t ih =>
    obtain ⟨a, b⟩ := p
    simp only [alistInsert]
    by_cases hak : a = k
    · subst hak
      simp only [if_pos rfl, alistLookup]
      by_cases hakey : a = key
      · simp [hakey]
      · simp [hakey]
    · simp only [if_neg hak, alistLookup, ih]
      by_cases hakey : a = key
      · subst hakey
        have hka : ¬ k = a := fun h => hak h.symm
        simp [hka]
      · simp [hakey]

@[simp]
theorem alistLookup_update {α : Type} (f : α → α) (l : List (Nat × α)) (k key : Nat) :
    alistLookup (alistUpdate f l k) key =
      if k = key then Option.map f (alistLookup l key) else alistLookup l key := by
  induction l with
  | nil => simp [alistUpdate, alistLookup]
  | cons p t ih =>
    obtain ⟨a, b⟩ := p
    simp only [alistUpdate]
    by_cases hak : a = k
    · subst hak
      simp only [if_pos rfl, alistLookup]
      by_cases hakey : a = key
      · simp [hakey]
      · simp [hakey]
    · simp only [if_neg hak, alistLookup, ih]
      by_cases hakey : a = key
      · subst hakey
        have hka : ¬ k = a := fun h => hak h.symm
        simp [hka]
      · simp [hakey]

@[simp]
theorem Amount.add_inner (a b : Amount) : (a + b).inner = a.inner + b.inner := rfl

@[simp]
theorem Amount.sub_inner (a b : Amount) : (a - b).inner = a.inner - b.inner := rfl

/-! ## Branch equations for the two step functions -/

theorem processTxn_dep_none (s : LedgerState) (r : TxnRecord)
    (hk : r.kind = .Deposit) (h : alistLookup s.accounts r.client = none) :
    processTxn s r =
      { txns := alistInsert s.txns r.tx r
        accounts := alistInsert s.accounts r.client ((Account.new r.client).deposit r.amount) } := by
  simp [processTxn, hk, h]

theorem processTxn_dep_locked (s : LedgerState) (r : TxnRecord) (account : Account)
    (hk : r.kind = .Deposit) (h : alistLookup s.accounts r.client = some account)
    (hl : account.locked = true) : processTxn s r = s := by
  simp [processTxn, hk, h, hl]

theorem processTxn_dep_unlocked (s : LedgerState) (r : TxnRecord) (account : Account)
    (hk : r.kind = .Deposit) (h : alistLookup s.accounts r.client = some account)
    (hl : account.locked = false) :
    processTxn s r =
      { txns := alistInsert s.txns r.tx r
        accounts := alistUpdate (fun a => a.deposit r.amount) s.accounts r.client } := by
  simp [processTxn, hk, h, hl]

theorem processTxn_wd_none (s : LedgerState) (r : TxnRecord)
    (hk : r.kind = .Withdrawal) (h : alistLookup s.accounts r.client = none) :
    processTxn s r =
      { txns := alistInsert s.txns r.tx r
        accounts := alistInsert s.accounts r.client (Account.new r.client) } := by
  simp [processTxn, hk, h]

theorem processTxn_wd_locked (s : LedgerState) (r : TxnRecord) (account : Account)
    (hk : r.kind = .Withdrawal) (h : alistLookup s.accounts r.client = some account)
    (hl : account.locked = true) : processTxn s r = s := by
  simp [processTxn, hk, h, hl]

theorem processTxn_wd_unlocked (s : LedgerState) (r : TxnRecord) (account : Account)
    (hk : r.kind = .Withdrawal) (h : alistLookup s.accounts r.client = some account)
    (hl : account.locked = false) :
    processTxn s r =
      { txns := alistInsert s.txns r.tx r
        accounts := alistUpdate (fun a => (a.withdraw r.amount).2) s.accounts r.client } := by
  simp [processTxn, hk, h, hl]

theorem processDispute_unknown (s : LedgerState) (d : DisputeRecord)
    (h : alistLookup s.txns d.tx = none) : processDispute s d = .ok s := by
  simp [processDispute, h]

theorem processDispute_dispute_noop (s : LedgerState) (d : DisputeRecord) (txn : TxnRecord)
    (h : alistLookup s.txns d.tx = some txn) (hk : d.kind = .Dispute)
    (hst : txn.state ≠ .Undisputed) : processDispute s d = .ok s := by
  simp [processDispute, h, hk, hst]

theorem processDispute_dispute_missing (s : LedgerState) (d : DisputeRecord) (txn : TxnRecord)
    (h : alistLookup s.txns d.tx = some txn) (hk : d.kind = .Dispute)
    (hst : txn.state = .Undisputed) (hacc : alistLookup s.accounts d.client = none) :
    processDispute s d = .error .missingAccount := by
  simp [processDispute, h, hk, hst, hacc]

theorem processDispute_dispute_apply (s : LedgerState) (d : DisputeRecord)
    (txn : TxnRecord) (account : Account)
    (h : alistLookup s.txns d.tx = some txn) (hk : d.kind = .Dispute)
    (hst : txn.state = .Undisputed) (hacc : alistLookup s.accounts d.client = some account) :
    processDispute s d =
      .ok { txns := alistUpdate (fun t => { t with state := .Disputed }) s.txns d.tx
            accounts := alistUpdate (fun a => a.hold txn.amount) s.accounts d.client } := by
  simp [processDispute, h, hk, hst, hacc]

theorem processDispute_resolve_noop (s : LedgerState) (d : DisputeRecord) (txn : TxnRecord)
    (h : alistLookup s.txns d.tx = some txn) (hk : d.kind = .Resolve)
    (hst : txn.state ≠ .Disputed) : processDispute s d = .ok s := by
  simp [processDispute, h, hk, hst]

theorem processDispute_resolve_missing (s : LedgerState) (d : DisputeRecord) (txn : TxnRecord)
    (h : alistLookup s.txns d.tx = some txn) (hk : d.kind = .Resolve)
    (hst : txn.state = .Disputed) (hacc : alistLookup s.accounts d.client = none) :
    processDispute s d = .error .missingAccount := by
  simp [processDispute, h, hk, hst, hacc]

theorem processDispute_resolve_apply (s : LedgerState) (d : DisputeRecord)
    (txn : TxnRecord) (account : Account)
    (h : alistLookup s.txns d.tx = some txn) (hk : d.kind = .Resolve)
    (hst : txn.state = .Disputed) (hacc : alistLookup s.accounts d.client = some account) :
    processDispute s d =
      .ok { txns := alistUpdate (fun t => { t with state := .Undisputed }) s.txns d.tx
            accounts := alistUpdate (fun a => a.resolve txn.amount) s.accounts d.client } := by
  simp [processDispute, h, hk, hst, hacc]

theorem processDispute_cb_noop (s : LedgerState) (d : DisputeRecord) (txn : TxnRecord)
    (h : alistLookup s.txns d.tx = some txn) (hk : d.kind = .ChargeBack)
    (hst : txn.state ≠ .Disputed) : processDispute s d = .ok s := by
  simp [processDispute, h, hk, hst]

theorem processDispute_cb_missing (s : LedgerState) (d : DisputeRecord) (txn : TxnRecord)
    (h : alistLookup s.txns d.tx = some txn) (hk : d.kind = .ChargeBack)
    (hst : txn.state = .Disputed) (hacc : alistLookup s.accounts d.client = none) :
    processDispute s d = .error .missingAccount := by
  simp [processDispute, h, hk, hst, hacc]

theorem processDispute_cb_apply (s : LedgerState) (d : DisputeRecord)
    (txn : TxnRecord) (account : Account)
    (h : alistLookup s.txns d.tx = some txn) (hk : d.kind = .ChargeBack)
    (hst : txn.state = .Disputed) (hacc : alistLookup s.accounts d.client = some account) :
    processDispute s d =
      .ok { txns := alistUpdate (fun t => { t with state := .Reversed }) s.txns d.tx
            accounts := alistUpdate (fun a => (a.charge_back txn.amount).lock) s.accounts d.client } := by
  simp [processDispute, h, hk, hst, hacc]

/-- Fold a step-preserved predicate over a whole run. -/
theorem processRecords_preserve (P : LedgerState → Prop)
    (hstep : ∀ s r s2, P s → processRecord s r = .ok s2 → P s2) :
    ∀ recs s s2, P s → processRecords recs s = .ok s2 → P s2 := by
  intro recs
  induction recs with
  | nil =>
    intro s s2 hP h
    simp only [processRecords, Except.ok.injEq] at h
    exact h ▸ hP
  | cons r rest ih =>
    intro s s2 hP h
    simp only [processRecords] at h
    cases hr : processRecord s r with
    | ok s1 =>
      rw [hr] at h
      exact ih s1 s2 (hstep s r s1 hP hr) h
    | error e =>
      rw [hr] at h
      exact absurd h (by simp)

/-- Case analysis for a successful lookup after an insert. -/
theorem lookup_insert_cases {α : Type} {l : List (Nat × α)} {k key : Nat} {v w : α}
    (h : alistLookup (alistInsert l k v) key = some w) :
    (k = key ∧ w = v) ∨ (¬ k = key ∧ alistLookup l key = some w) := by
  rw [alistLookup_insert] at h
  by_cases hk : k = key
  · rw [if_pos hk] at h
    exact Or.inl ⟨hk, (Option.some.injEq _ _ ▸ h).symm⟩
  · rw [if_neg hk] at h
    exact Or.inr ⟨hk, h⟩

/-- Case analysis for a successful lookup after an update. -/
theorem lookup_update_cases {α : Type} {f : α → α} {l : List (Nat × α)} {k key : Nat} {v : α}
    (h : alistLookup (alistUpdate f l k) key = some v) :
    (k = key ∧ ∃ w, alistLookup l key = some w ∧ v = f w) ∨
      (¬ k = key ∧ alistLookup l key = some v) := by
  rw [alistLookup_update] at h
  by_cases hk : k = key
  · rw [if_pos hk] at h
    cases hw : alistLookup l key with
    | none => rw [hw] at h; cases h
    | some w =>
      rw [hw] at h
      refine Or.inl ⟨hk, w, rfl, ?_⟩
      exact ((Option.some.injEq _ _).mp h).symm
  · rw [if_neg hk] at h
    exact Or.inr ⟨hk, h⟩

/-- A present key stays present across an update. -/
theorem lookup_update_of_lookup {α : Type} (f : α → α) (k : Nat) {l : List (Nat × α)}
    {key : Nat} {v : α} (h : alistLookup l key = some v) :
    ∃ w, alistLookup (alistUpdate f l k) key = some w := by
  rw [alistLookup_update]
  by_cases hk : k = key
  · exact ⟨f v, by rw [if_pos hk, h]; rfl⟩
  · exact ⟨v, by rw [if_neg hk]; exact h⟩

/-! ## The balance invariant (C2) -/

/-- The spec invariant on one account: total = available + held. -/
def BalancedAcct (a : Account) : Prop :=
  a.total.inner = a.available.inner + a.held.inner

/-- Every account of a ledger state satisfies the balance invariant. -/
def AllBalanced (s : LedgerState) : Prop :=
  ∀ c a, alistLookup s.accounts c = some a → BalancedAcct a

theorem BalancedAcct.of_new (c : ClientID) : BalancedAcct (Account.new c) := by
  simp [BalancedAcct, Account.new, Amount.zero]

theorem BalancedAcct.of_deposit {a : Account} (h : BalancedAcct a) (m : Amount) :
    BalancedAcct (a.deposit m) := by
  simp only [BalancedAcct, Account.deposit, Amount.add_inner] at h ⊢
  omega

theorem BalancedAcct.of_withdraw {a : Account} (h : BalancedAcct a) (m : Amount) :
    BalancedAcct (a.withdraw m).2 := by
  simp only [BalancedAcct, Account.withdraw] at h ⊢
  by_cases hlt : a.available < m
  · rw [if_pos hlt]
    exact h
  · rw [if_neg hlt]
    simp only [Amount.sub_inner]
    omega

theorem BalancedAcct.of_hold {a : Account} (h : BalancedAcct a) (m : Amount) :
    BalancedAcct (a.hold m) := by
  simp only [BalancedAcct, Account.hold, Amount.add_inner, Amount.sub_inner] at h ⊢
  omega

theorem BalancedAcct.of_resolve {a : Account} (h : BalancedAcct a) (m : Amount) :
    BalancedAcct (a.resolve m) := by
  simp only [BalancedAcct, Account.resolve, Amount.add_inner, Amount.sub_inner] at h ⊢
  omega

theorem BalancedAcct.of_charge_back {a : Account} (h : BalancedAcct a) (m : Amount) :
    BalancedAcct ((a.charge_back m).lock) := by
  simp only [BalancedAcct, Account.charge_back, Account.lock, Amount.sub_inner] at h ⊢
  omega

/-- One transaction-record step preserves the balance invariant. -/
theorem processTxn_allBalanced (s : LedgerState) (r : TxnRecord)
    (h : AllBalanced s) : AllBalanced (processTxn s r) := by
  cases hk : r.kind with
  | Deposit =>
    cases hacc : alistLookup s.accounts r.client with
    | none =>
      rw [processTxn_dep_none s r hk hacc]
      intro c a ha
      rcases lookup_insert_cases ha with ⟨_, rfl⟩ | ⟨_, hold2⟩
      · exact (BalancedAcct.of_new r.client).of_deposit r.amount
      · exact h c a hold2
    | some account =>
      cases hl : account.locked with
      | true =>
        rw [processTxn_dep_locked s r account hk hacc hl]
        exact h
      | false =>
        rw [processTxn_dep_unlocked s r account hk hacc hl]
        intro c a ha
        rcases lookup_update_cases ha with ⟨_, w, hw, rfl⟩ | ⟨_, hold2⟩
        · exact (h c w hw).of_deposit r.amount
        · exact h c a hold2
  | Withdrawal =>
    cases hacc : alistLookup s.accounts r.client with
    | none =>
      rw [processTxn_wd_none s r hk hacc]
      intro c a ha
      rcases lookup_insert_cases ha with ⟨_, rfl⟩ | ⟨_, hold2⟩
      · exact BalancedAcct.of_new r.client
      · exact h c a hold2
    | some account =>
      cases hl : account.locked with
      | true =>
        rw [processTxn_wd_locked s r account hk hacc hl]
        exact h
      | false =>
        rw [processTxn_wd_unlocked s r account hk hacc hl]
        intro c a ha
        rcases lookup_update_cases ha with ⟨_, w, hw, rfl⟩ | ⟨_, hold2⟩
        · exact (h c w hw).of_withdraw r.amount
        · exact h c a hold2

/-- One dispute-record step preserves the balance invariant. -/
theorem processDispute_allBalanced (s : LedgerState) (d : DisputeRecord) (s2 : LedgerState)
    (h : AllBalanced s) (hstep : processDispute s d = .ok s2) : AllBalanced s2 := by
  cases htx : alistLookup s.txns d.tx with
  | none =>
    rw [processDispute_unknown s d htx] at hstep
    cases hstep
    exact h
  | some txn =>
    cases hk : d.kind with
    | Dispute =>
      by_cases hst : txn.state = .Undisputed
      · cases hacc : alistLookup s.accounts d.client with
        | none =>
          rw [processDispute_dispute_missing s d txn htx hk hst hacc] at hstep
          cases hstep
        | some account =>
          rw [processDispute_dispute_apply s d txn account htx hk hst hacc] at hstep
          cases hstep
          intro c a ha
          rcases lookup_update_cases ha with ⟨_, w, hw, rfl⟩ | ⟨_, hold2⟩
          · exact (h c w hw).of_hold txn.amount
          · exact h c a hold2
      · rw [processDispute_dispute_noop s d txn htx hk hst] at hstep
        cases hstep
        exact h
    | Resolve =>
      by_cases hst : txn.state = .Disputed
      · cases hacc : alistLookup s.accounts d.client with
        | none =>
          rw [processDispute_resolve_missing s d txn htx hk hst hacc] at hstep
          cases hstep
        | some account =>
          rw [processDispute_resolve_apply s d txn account htx hk hst hacc] at hstep
          cases hstep
          intro c a ha
          rcases lookup_update_cases ha with ⟨_, w, hw, rfl⟩ | ⟨_, hold2⟩
          · exact (h c w hw).of_resolve txn.amount
          · exact h c a hold2
      · rw [processDispute_resolve_noop s d txn htx hk hst] at hstep
        cases hstep
        exact h
    | ChargeBack =>
      by_cases hst : txn.state = .Disputed
      · cases hacc : alistLookup s.accounts d.client with
        | none =>
          rw [processDispute_cb_missing s d txn htx hk hst hacc] at hstep
          cases hstep
        | some account =>
          rw [processDispute_cb_apply s d txn account htx hk hst hacc] at hstep
          cases hstep
          intro c a ha
          rcases lookup_update_cases ha with ⟨_, w, hw, rfl⟩ | ⟨_, hold2⟩
          · exact (h c w hw).of_charge_back txn.amount
          · exact h c a hold2
      · rw [processDispute_cb_noop s d txn htx hk hst] at hstep
        cases hstep
        exact h

/-- Any single record step preserves the balance invariant. -/
theorem processRecord_allBalanced (s : LedgerState) (r : Record) (s2 : LedgerState)
    (h : AllBalanced s) (hstep : processRecord s r = .ok s2) : AllBalanced s2 := by
  cases r with
  | txn t =>
    simp only [processRecord, Except.ok.injEq] at hstep
    exact hstep ▸ processTxn_allBalanced s t h
  | dispute d => exact processDispute_allBalanced s d s2 h hstep

theorem initState_allBalanced : AllBalanced initState := by
  intro c a ha
  simp [initState, alistLookup] at ha

/-- A one-deposit state fixture used by several witnesses: the state
reached from the empty state by a single deposit of 5.0 for client 1. -/
def depState1 : LedgerState :=
  { txns :=
      [(1, { kind := .Deposit, client := 1, tx := 1, amount := ⟨50000⟩, state := .Undisputed })]
    accounts :=
      [(1, { client := 1, available := ⟨50000⟩, held := ⟨0⟩, total := ⟨50000⟩, locked := false })] }

/-- C2: for every client account and every sequence of input records, the
equation total = available + held holds after processing each record: it
holds on a newly created account, it is preserved by every single record
step (deposit, withdraw, hold, resolve, charge_back and lock), and hence
it holds for every account of every state reached by a run from the empty
initial state. -/
theorem claim_C2_balance_invariant :
    (∀ s r s2, AllBalanced s → processRecord s r = .ok s2 → AllBalanced s2) ∧
    (∀ recs s2, processRecords recs initState = .ok s2 →
      ∀ c a, alistLookup s2.accounts c = some a →
        a.total.inner = a.available.inner + a.held.inner) := by
  constructor
  · exact processRecord_allBalanced
  · intro recs s2 h
    exact processRecords_preserve AllBalanced processRecord_allBalanced recs
      initState s2 initState_allBalanced h

/-- Witness for C2 at a concrete one-record run and a concrete account. -/
theorem claim_C2_balance_invariant_witness :
    ({ client := 1, available := ⟨50000⟩, held := ⟨0⟩, total := ⟨50000⟩, locked := false } : Account).total.inner =
      ({ client := 1, available := ⟨50000⟩, held := ⟨0⟩, total := ⟨50000⟩, locked := false } : Account).available.inner +
      ({ client := 1, available := ⟨50000⟩, held := ⟨0⟩, total := ⟨50000⟩, locked := false } : Account).held.inner :=
  claim_C2_balance_invariant.2
    [Record.txn { kind := .Deposit, client := 1, tx := 1, amount := ⟨50000⟩, state := .Undisputed }]
    depState1 rfl 1
    { client := 1, available := ⟨50000⟩, held := ⟨0⟩, total := ⟨50000⟩, locked := false } rfl

/-! ## Locked accounts (C7) -/

@[simp]
theorem Account.deposit_locked (a : Account) (m : Amount) : (a.deposit m).locked = a.locked := rfl

@[simp]
theorem Account.withdraw_locked (a : Account) (m : Amount) :
    ((a.withdraw m).2).locked = a.locked := by
  unfold Account.withdraw
  by_cases h : a.available < m
  · rw [if_pos h]
  · rw [if_neg h]

@[simp]
theorem Account.hold_locked (a : Account) (m : Amount) : (a.hold m).locked = a.locked := rfl

@[simp]
theorem Account.resolve_locked (a : Account) (m : Amount) : (a.resolve m).locked = a.locked := rfl

@[simp]
theorem Account.charge_back_lock_locked (a : Account) (m : Amount) :
    ((a.charge_back m).lock).locked = true := rfl

/-- A locked account stays present and locked across one transaction step. -/
theorem processTxn_locked_mono (s : LedgerState) (t : TxnRecord) (c : ClientID) (a : Account)
    (ha : alistLookup s.accounts c = some a) (hl : a.locked = true) :
    ∃ b, alistLookup (processTxn s t).accounts c = some b ∧ b.locked = true := by
  cases hk : t.kind with
  | Deposit =>
    cases hacc : alistLookup s.accounts t.client with
    | none =>
      rw [processTxn_dep_none s t hk hacc]
      refine ⟨a, ?_, hl⟩
      rw [alistLookup_insert]
      by_cases hc : t.client = c
      · rw [hc] at hacc
        rw [hacc] at ha
        cases ha
      · rw [if_neg hc]
        exact ha
    | some account =>
      cases hlk : account.locked with
      | true =>
        rw [processTxn_dep_locked s t account hk hacc hlk]
        exact ⟨a, ha, hl⟩
      | false =>
        rw [processTxn_dep_unlocked s t account hk hacc hlk]
        by_cases hc : t.client = c
        · refine ⟨a.deposit t.amount, ?_, by simp [hl]⟩
          rw [alistLookup_update, if_pos hc, ha]
          rfl
        · refine ⟨a, ?_, hl⟩
          rw [alistLookup_update, if_neg hc]
          exact ha
  | Withdrawal =>
    cases hacc : alistLookup s.accounts t.client with
    | none =>
      rw [processTxn_wd_none s t hk hacc]
      refine ⟨a, ?_, hl⟩
      rw [alistLookup_insert]
      by_cases hc : t.client = c
      · rw [hc] at hacc
        rw [hacc] at ha
        cases ha
      · rw [if_neg hc]
        exact ha
    | some account =>
      cases hlk : account.locked with
      | true =>
        rw [processTxn_wd_locked s t account hk hacc hlk]
        exact ⟨a, ha, hl⟩
      | false =>
        rw [processTxn_wd_unlocked s t account hk hacc hlk]
        by_cases hc : t.client = c
        · refine ⟨(a.withdraw t.amount).2, ?_, by simp [hl]⟩
          rw [alistLookup_update, if_pos hc, ha]
          rfl
        · refine ⟨a, ?_, hl⟩
          rw [alistLookup_update, if_neg hc]
          exact ha

/-- A locked account stays present and locked across one dispute step. -/
theorem processDispute_locked_mono (s : LedgerState) (d : DisputeRecord) (s2 : LedgerState)
    (hstep : processDispute s d = .ok s2) (c : ClientID) (a : Account)
    (ha : alistLookup s.accounts c = some a) (hl : a.locked = true) :
    ∃ b, alistLookup s2.accounts c = some b ∧ b.locked = true := by
  cases htx : alistLookup s.txns d.tx with
  | none =>
    rw [processDispute_unknown s d htx] at hstep
    cases hstep
    exact ⟨a, ha, hl⟩
  | some txn =>
    cases hk : d.kind with
    | Dispute =>
      by_cases hst : txn.state = .Undisputed
      · cases hacc : alistLookup s.accounts d.client with
        | none =>
          rw [processDispute_dispute_missing s d txn htx hk hst hacc] at hstep
          cases hstep
        | some account =>
          rw [processDispute_dispute_apply s d txn account htx hk hst hacc] at hstep
          cases hstep
          by_cases hc : d.client = c
          · refine ⟨a.hold txn.amount, ?_, by simp [hl]⟩
            rw [alistLookup_update, if_pos hc, ha]
            rfl
          · refine ⟨a, ?_, hl⟩
            rw [alistLookup_update, if_neg hc]
            exact ha
      · rw [processDispute_dispute_noop s d txn htx hk hst] at hstep
        cases hstep
        exact ⟨a, ha, hl⟩
    | Resolve =>
      by_cases hst : txn.state = .Disputed
      · cases hacc : alistLookup s.accounts d.client with
        | none =>
          rw [processDispute_resolve_missing s d txn htx hk hst hacc] at hstep
          cases hstep
        | some account =>
          rw [processDispute_resolve_apply s d txn account htx hk hst hacc] at hstep
          cases hstep
          by_cases hc : d.client = c
          · refine ⟨a.resolve txn.amount, ?_, by simp [hl]⟩
            rw [alistLookup_update, if_pos hc, ha]
            rfl
          · refine ⟨a, ?_, hl⟩
            rw [alistLookup_update, if_neg hc]
            exact ha
      · rw [processDispute_resolve_noop s d txn htx hk hst] at hstep
        cases hstep
        exact ⟨a, ha, hl⟩
    | ChargeBack =>
      by_cases hst : txn.state = .Disputed
      · cases hacc : alistLookup s.accounts d.client with
        | none =>
          rw [processDispute_cb_missing s d txn htx hk hst hacc] at hstep
          cases hstep
        | some account =>
          rw [processDispute_cb_apply s d txn account htx hk hst hacc] at hstep
          cases hstep
          by_cases hc : d.client = c
          · refine ⟨(a.charge_back txn.amount).lock, ?_, by simp⟩
            rw [alistLookup_update, if_pos hc, ha]
            rfl
          · refine ⟨a, ?_, hl⟩
            rw [alistLookup_update, if_neg hc]
            exact ha
      · rw [processDispute_cb_noop s d txn htx hk hst] at hstep
        cases hstep
        exact ⟨a, ha, hl⟩

/-- A locked account stays present and locked across any record step. -/
theorem processRecord_locked_mono (s : LedgerState) (r : Record) (s2 : LedgerState)
    (hstep : processRecord s r = .ok s2) (c : ClientID) (a : Account)
    (ha : alistLookup s.accounts c = some a) (hl : a.locked = true) :
    ∃ b, alistLookup s2.accounts c = some b ∧ b.locked = true := by
  cases r with
  | txn t =>
    simp only [processRecord, Except.ok.injEq] at hstep
    exact hstep ▸ processTxn_locked_mono s t c a ha hl
  | dispute d => exact processDispute_locked_mono s d s2 hstep c a ha hl

/-- C7: once an account is locked it stays present and locked through any
run (no operation ever resets the flag), and a deposit or withdrawal
record for a client whose account is locked leaves the whole state
unchanged, so in particular the account available and total funds. -/
theorem claim_C7_locked_monotone :
    (∀ recs s s2 c a, alistLookup s.accounts c = some a → a.locked = true →
      processRecords recs s = .ok s2 →
      ∃ b, alistLookup s2.accounts c = some b ∧ b.locked = true) ∧
    (∀ s t account, alistLookup s.accounts t.client = some account →
      account.locked = true → processTxn s t = s) := by
  constructor
  · intro recs s s2 c a ha hl hrun
    exact processRecords_preserve
      (fun st => ∃ b, alistLookup st.accounts c = some b ∧ b.locked = true)
      (fun st r st2 hP hstep => by
        obtain ⟨b, hb, hbl⟩ := hP
        exact processRecord_locked_mono st r st2 hstep c b hb hbl)
      recs s s2 ⟨a, ha, hl⟩ hrun
  · intro s t account hacc hl
    cases hk : t.kind with
    | Deposit => exact processTxn_dep_locked s t account hk hacc hl
    | Withdrawal => exact processTxn_wd_locked s t account hk hacc hl

/-- A locked account fixture for the C7 witness. -/
def lockedAcct1 : Account :=
  { client := 1, available := ⟨0⟩, held := ⟨0⟩, total := ⟨0⟩, locked := true }

/-- A one-account state whose only account is locked. -/
def lockedState1 : LedgerState := { txns := [], accounts := [(1, lockedAcct1)] }

/-- A deposit record aimed at the locked account of `lockedState1`. -/
def depositRec9 : TxnRecord :=
  { kind := .Deposit, client := 1, tx := 9, amount := ⟨70000⟩, state := .Undisputed }

/-- Witness for C7: a locked account survives a deposit run untouched. -/
theorem claim_C7_locked_monotone_witness :
    (∃ b, alistLookup lockedState1.accounts 1 = some b ∧ b.locked = true) ∧
      processTxn lockedState1 depositRec9 = lockedState1 :=
  ⟨claim_C7_locked_monotone.1 [Record.txn depositRec9] lockedState1 lockedState1 1
      lockedAcct1 rfl rfl rfl,
    claim_C7_locked_monotone.2 lockedState1 depositRec9 lockedAcct1 rfl rfl⟩

/-! ## Idempotence of Dispute (C8) -/

/-- After a successful `Dispute` step, a second `Dispute` for the same
record is a no-op: the referenced transaction is now out of `Undisputed`
state (or was never present at all). -/
theorem dispute_twice_noop (s : LedgerState) (d : DisputeRecord) (s1 : LedgerState)
    (hk : d.kind = .Dispute) (h1 : processDispute s d = .ok s1) :
    processDispute s1 d = .ok s1 := by
  cases htx : alistLookup s.txns d.tx with
  | none =>
    rw [processDispute_unknown s d htx] at h1
    cases h1
    exact processDispute_unknown s d htx
  | some txn =>
    by_cases hst : txn.state = .Undisputed
    · cases hacc : alistLookup s.accounts d.client with
      | none =>
        rw [processDispute_dispute_missing s d txn htx hk hst hacc] at h1
        cases h1
      | some account =>
        rw [processDispute_dispute_apply s d txn account htx hk hst hacc] at h1
        cases h1
        refine processDispute_dispute_noop _ d { txn with state := .Disputed } ?_ hk (by simp)
        rw [alistLookup_update, if_pos rfl, htx]
        rfl
    · rw [processDispute_dispute_noop s d txn htx hk hst] at h1
      cases h1
      exact processDispute_dispute_noop s d txn htx hk hst

/-- C8: applying a `Dispute` record twice in a row has the same effect on
the whole ledger state (all accounts and all transaction states) as
applying it once; the second application is a no-op because a dispute
applies only to a transaction in `Undisputed` state. -/
theorem claim_C8_dispute_idempotent (s : LedgerState) (d : DisputeRecord)
    (hk : d.kind = .Dispute) :
    processRecords [.dispute d, .dispute d] s = processRecords [.dispute d] s := by
  cases h1 : processDispute s d with
  | error e => simp [processRecords, processRecord, h1]
  | ok s1 =>
    have h2 := dispute_twice_noop s d s1 hk h1
    simp [processRecords, processRecord, h1, h2]

/-- The dispute record referencing the deposit of `depState1`. -/
def disputeRec1 : DisputeRecord := { kind := .Dispute, client := 1, tx := 1 }

/-- Witness for C8 at a concrete disputable state. -/
theorem claim_C8_dispute_idempotent_witness :
    processRecords [.dispute disputeRec1, .dispute disputeRec1] depState1 =
      processRecords [.dispute disputeRec1] depState1 :=
  claim_C8_dispute_idempotent depState1 disputeRec1 rfl

/-! ## Withdrawal semantics (C9) -/

/-- C9: a withdrawal for a known unlocked client succeeds exactly when
available >= amount, subtracting the amount from available and total; on
insufficient funds every account is left unchanged and no error is
raised; a withdrawal for an unknown client creates a zeroed, unlocked
account and moves no funds. -/
theorem claim_C9_withdrawal_semantics :
    (∀ s r account, r.kind = .Withdrawal → alistLookup s.accounts r.client = some account →
      account.locked = false →
      (¬ account.available < r.amount →
        alistLookup (processTxn s r).accounts r.client =
          some { account with available := account.available - r.amount,
                              total := account.total - r.amount }) ∧
      (account.available < r.amount →
        ∀ c, alistLookup (processTxn s r).accounts c = alistLookup s.accounts c)) ∧
    (∀ s r, r.kind = .Withdrawal → processRecord s (.txn r) = .ok (processTxn s r)) ∧
    (∀ s r, r.kind = .Withdrawal → alistLookup s.accounts r.client = none →
      alistLookup (processTxn s r).accounts r.client = some (Account.new r.client) ∧
      Account.new r.client =
        { client := r.client, available := ⟨0⟩, held := ⟨0⟩, total := ⟨0⟩, locked := false } ∧
      ∀ c, ¬ c = r.client →
        alistLookup (processTxn s r).accounts c = alistLookup s.accounts c) := by
  refine ⟨?_, fun s r _ => rfl, ?_⟩
  · intro s r account hk hacc hl
    constructor
    · intro hge
      rw [processTxn_wd_unlocked s r account hk hacc hl]
      rw [alistLookup_update, if_pos rfl, hacc]
      simp [Account.withdraw, hge]
    · intro hlt c
      rw [processTxn_wd_unlocked s r account hk hacc hl]
      rw [alistLookup_update]
      by_cases hc : r.client = c
      · subst hc
        rw [if_pos rfl, hacc]
        simp [Account.withdraw, hlt]
      · rw [if_neg hc]
  · intro s r hk hacc
    rw [processTxn_wd_none s r hk hacc]
    refine ⟨?_, rfl, ?_⟩
    · rw [alistLookup_insert, if_pos rfl]
    · intro c hc
      have hrc : ¬ r.client = c := fun h => hc h.symm
      rw [alistLookup_insert, if_neg hrc]

/-- The account held by `depState1` for client 1. -/
def depAcct1 : Account :=
  { client := 1, available := ⟨50000⟩, held := ⟨0⟩, total := ⟨50000⟩, locked := false }

/-- A withdrawal within the available funds of `depAcct1`. -/
def wdRec30 : TxnRecord :=
  { kind := .Withdrawal, client := 1, tx := 2, amount := ⟨30000⟩, state := .Undisputed }

/-- A withdrawal exceeding the available funds of `depAcct1`. -/
def wdRec60 : TxnRecord :=
  { kind := .Withdrawal, client := 1, tx := 2, amount := ⟨60000⟩, state := .Undisputed }

/-- A withdrawal for a client that has no account (spec scenario D). -/
def wdRec9 : TxnRecord :=
  { kind := .Withdrawal, client := 9, tx := 3, amount := ⟨1000000⟩, state := .Undisputed }

/-- Witness for C9: all three branches at concrete inputs. -/
theorem claim_C9_withdrawal_semantics_witness :
    (alistLookup (processTxn depState1 wdRec30).accounts 1 =
        some { client := 1, available := ⟨20000⟩, held := ⟨0⟩, total := ⟨20000⟩,
               locked := false }) ∧
    (alistLookup (processTxn depState1 wdRec60).accounts 1 =
        alistLookup depState1.accounts 1) ∧
    processRecord depState1 (.txn wdRec30) = .ok (processTxn depState1 wdRec30) ∧
    alistLookup (processTxn initState wdRec9).accounts 9 = some (Account.new 9) :=
  ⟨(claim_C9_withdrawal_semantics.1 depState1 wdRec30 depAcct1 rfl rfl rfl).1 (by decide),
    (claim_C9_withdrawal_semantics.1 depState1 wdRec60 depAcct1 rfl rfl rfl).2 (by decide) 1,
    claim_C9_withdrawal_semantics.2.1 depState1 wdRec30 rfl,
    (claim_C9_withdrawal_semantics.2.2 initState wdRec9 rfl rfl).1⟩

/-! ## Dispute needs no sufficiency check (C10) -/

/-- Deposit 5.0, withdraw all of it, then dispute the deposit. -/
def c10run : List Record :=
  [.txn { kind := .Deposit, client := 1, tx := 1, amount := ⟨50000⟩, state := .Undisputed },
   .txn { kind := .Withdrawal, client := 1, tx := 2, amount := ⟨50000⟩, state := .Undisputed },
   .dispute { kind := .Dispute, client := 1, tx := 1 }]

/-- The state reached by `c10run`: available has gone negative. -/
def c10state : LedgerState :=
  { txns :=
      [(1, { kind := .Deposit, client := 1, tx := 1, amount := ⟨50000⟩, state := .Disputed }),
       (2, { kind := .Withdrawal, client := 1, tx := 2, amount := ⟨50000⟩, state := .Undisputed })]
    accounts :=
      [(1, { client := 1, available := ⟨-50000⟩, held := ⟨50000⟩, total := ⟨0⟩,
             locked := false })] }

/-- C10: `Account::hold` subtracts from available unconditionally (no
sufficiency check), so a deposit that is withdrawn and then disputed
drives available negative while total = available + held still holds. -/
theorem claim_C10_dispute_no_sufficiency_check :
    (∀ (a : Account) (m : Amount),
      (a.hold m).available = a.available - m ∧ (a.hold m).held = a.held + m ∧
      (a.hold m).total = a.total ∧ (a.hold m).locked = a.locked) ∧
    (processRecords c10run initState = .ok c10state ∧
      ∃ acct, alistLookup c10state.accounts 1 = some acct ∧
        acct.available.inner < 0 ∧
        acct.total.inner = acct.available.inner + acct.held.inner) := by
  refine ⟨fun a m => ⟨rfl, rfl, rfl, rfl⟩, rfl, ?_⟩
  refine ⟨_, rfl, ?_, ?_⟩
  · decide
  · decide

/-! ## Storage of transaction records (C1) -/

/-- Deposit, dispute, charge back (locking the account), then deposit
again under a fresh tx id. -/
def c1run : List Record :=
  [.txn { kind := .Deposit, client := 1, tx := 1, amount := ⟨50000⟩, state := .Undisputed },
   .dispute { kind := .Dispute, client := 1, tx := 1 },
   .dispute { kind := .ChargeBack, client := 1, tx := 1 },
   .txn { kind := .Deposit, client := 1, tx := 2, amount := ⟨10000⟩, state := .Undisputed }]

/-- The state reached by `c1run`: the last deposit hit a locked account,
was skipped by the loop `continue`, and was not stored under tx 2. -/
def c1state : LedgerState :=
  { txns :=
      [(1, { kind := .Deposit, client := 1, tx := 1, amount := ⟨50000⟩, state := .Reversed })]
    accounts :=
      [(1, { client := 1, available := ⟨0⟩, held := ⟨0⟩, total := ⟨0⟩, locked := true })] }

/-- C1 counterexample: the final deposit record (tx 2) of `c1run` is
processed while the account of client 1 is locked; the `continue` in the
locked branch of `process` also skips the `txns.insert` on lib.rs line
85, so tx 2 is never stored in the transaction map — refuting the claim
that the record is stored regardless of the locked flag. -/
theorem claim_C1_counterexample :
    processRecords c1run initState = .ok c1state ∧ alistLookup c1state.txns 2 = none :=
  ⟨rfl, rfl⟩

/-- C1 (amended): every deposit or withdrawal record processed for a
client whose account is absent or unlocked is stored in the transaction
map under its tx id with dispute state Undisputed (regardless of whether
the funds movement succeeds); a record for a locked account is skipped
entirely and not stored. -/
theorem claim_C1_amended_stored (s : LedgerState) (r : TxnRecord)
    (hst : r.state = .Undisputed)
    (hnl : ∀ account, alistLookup s.accounts r.client = some account →
      account.locked = false) :
    alistLookup (processTxn s r).txns r.tx = some r ∧ r.state = .Undisputed := by
  refine ⟨?_, hst⟩
  cases hk : r.kind with
  | Deposit =>
    cases hacc : alistLookup s.accounts r.client with
    | none =>
      rw [processTxn_dep_none s r hk hacc]
      rw [alistLookup_insert, if_pos rfl]
    | some account =>
      rw [processTxn_dep_unlocked s r account hk hacc (hnl account hacc)]
      rw [alistLookup_insert, if_pos rfl]
  | Withdrawal =>
    cases hacc : alistLookup s.accounts r.client with
    | none =>
      rw [processTxn_wd_none s r hk hacc]
      rw [alistLookup_insert, if_pos rfl]
    | some account =>
      rw [processTxn_wd_unlocked s r account hk hacc (hnl account hacc)]
      rw [alistLookup_insert, if_pos rfl]

/-- The deposit record of `depState1`. -/
def depRec1 : TxnRecord :=
  { kind := .Deposit, client := 1, tx := 1, amount := ⟨50000⟩, state := .Undisputed }

/-- Witness for the amended C1 at a concrete deposit on the empty state. -/
theorem claim_C1_amended_stored_witness :
    alistLookup (processTxn initState depRec1).txns 1 = some depRec1 ∧
      depRec1.state = .Undisputed :=
  claim_C1_amended_stored initState depRec1 rfl (fun _ h => Option.noConfusion h)

/-! ## Terminal chargeback state (C6) -/

/-- Whether a record is a dispute-family record referencing `tx`. -/
def isDisputeOn (tx : TxnID) : Record → Bool
  | .txn _ => false
  | .dispute d => decide (d.tx = tx)

/-- Any dispute-family record referencing a Reversed transaction leaves
the state entirely unchanged. -/
theorem dispute_on_reversed_noop (s : LedgerState) (d : DisputeRecord) (txn : TxnRecord)
    (h : alistLookup s.txns d.tx = some txn) (hrev : txn.state = .Reversed) :
    processDispute s d = .ok s := by
  cases hk : d.kind with
  | Dispute =>
    refine processDispute_dispute_noop s d txn h hk ?_
    rw [hrev]
    simp
  | Resolve =>
    refine processDispute_resolve_noop s d txn h hk ?_
    rw [hrev]
    simp
  | ChargeBack =>
    refine processDispute_cb_noop s d txn h hk ?_
    rw [hrev]
    simp

/-- A Reversed entry stays present and Reversed across any record step
that is not a transaction record reusing its tx id. -/
theorem reversed_preserved (s : LedgerState) (r : Record) (s1 : LedgerState)
    (txid : TxnID) (txn : TxnRecord)
    (h : alistLookup s.txns txid = some txn) (hrev : txn.state = .Reversed)
    (hfresh : ∀ t, r = Record.txn t → ¬ t.tx = txid)
    (hstep : processRecord s r = .ok s1) :
    ∃ txn1, alistLookup s1.txns txid = some txn1 ∧ txn1.state = .Reversed := by
  cases r with
  | txn t =>
    simp only [processRecord, Except.ok.injEq] at hstep
    subst hstep
    have htx : ¬ t.tx = txid := hfresh t rfl
    cases hk : t.kind with
    | Deposit =>
      cases hacc : alistLookup s.accounts t.client with
      | none =>
        rw [processTxn_dep_none s t hk hacc]
        refine ⟨txn, ?_, hrev⟩
        rw [alistLookup_insert, if_neg htx]
        exact h
      | some account =>
        cases hl : account.locked with
        | true =>
          rw [processTxn_dep_locked s t account hk hacc hl]
          exact ⟨txn, h, hrev⟩
        | false =>
          rw [processTxn_dep_unlocked s t account hk hacc hl]
          refine ⟨txn, ?_, hrev⟩
          rw [alistLookup_insert, if_neg htx]
          exact h
    | Withdrawal =>
      cases hacc : alistLookup s.accounts t.client with
      | none =>
        rw [processTxn_wd_none s t hk hacc]
        refine ⟨txn, ?_, hrev⟩
        rw [alistLookup_insert, if_neg htx]
        exact h
      | some account =>
        cases hl : account.locked with
        | true =>
          rw [processTxn_wd_locked s t account hk hacc hl]
          exact ⟨txn, h, hrev⟩
        | false =>
          rw [processTxn_wd_unlocked s t account hk hacc hl]
          refine ⟨txn, ?_, hrev⟩
          rw [alistLookup_insert, if_neg htx]
          exact h
  | dispute d =>
    simp only [processRecord] at hstep
    by_cases hdtx : d.tx = txid
    · have hd : alistLookup s.txns d.tx = some txn := by rw [hdtx]; exact h
      rw [dispute_on_reversed_noop s d txn hd hrev] at hstep
      cases hstep
      exact ⟨txn, h, hrev⟩
    · cases htx2 : alistLookup s.txns d.tx with
      | none =>
        rw [processDispute_unknown s d htx2] at hstep
        cases hstep
        exact ⟨txn, h, hrev⟩
      | some txn2 =>
        cases hk : d.kind with
        | Dispute =>
          by_cases hst : txn2.state = .Undisputed
          · cases hacc : alistLookup s.accounts d.client with
            | none =>
              rw [processDispute_dispute_missing s d txn2 htx2 hk hst hacc] at hstep
              cases hstep
            | some account =>
              rw [processDispute_dispute_apply s d txn2 account htx2 hk hst hacc] at hstep
              cases hstep
              refine ⟨txn, ?_, hrev⟩
              rw [alistLookup_update, if_neg hdtx]
              exact h
          · rw [processDispute_dispute_noop s d txn2 htx2 hk hst] at hstep
            cases hstep
            exact ⟨txn, h, hrev⟩
        | Resolve =>
          by_cases hst : txn2.state = .Disputed
          · cases hacc : alistLookup s.accounts d.client with
            | none =>
              rw [processDispute_resolve_missing s d txn2 htx2 hk hst hacc] at hstep
              cases hstep
            | some account =>
              rw [processDispute_resolve_apply s d txn2 account htx2 hk hst hacc] at hstep
              cases hstep
              refine ⟨txn, ?_, hrev⟩
              rw [alistLookup_update, if_neg hdtx]
              exact h
          · rw [processDispute_resolve_noop s d txn2 htx2 hk hst] at hstep
            cases hstep
            exact ⟨txn, h, hrev⟩
        | ChargeBack =>
          by_cases hst : txn2.state = .Disputed
          · cases hacc : alistLookup s.accounts d.client with
            | none =>
              rw [processDispute_cb_missing s d txn2 htx2 hk hst hacc] at hstep
              cases hstep
            | some account =>
              rw [processDispute_cb_apply s d txn2 account htx2 hk hst hacc] at hstep
              cases hstep
              refine ⟨txn, ?_, hrev⟩
              rw [alistLookup_update, if_neg hdtx]
              exact h
          · rw [processDispute_cb_noop s d txn2 htx2 hk hst] at hstep
            cases hstep
            exact ⟨txn, h, hrev⟩

/-- C6: once a transaction entry is Reversed (the state a ChargeBack
leaves behind), dispute-family records referencing that tx id change
nothing: as long as no later deposit or withdrawal reuses the tx id, a
run behaves exactly like the same run with every Dispute, Resolve and
ChargeBack referencing that tx id removed. -/
theorem claim_C6_chargeback_terminal (recs : List Record) :
    ∀ (s : LedgerState) (txid : TxnID) (txn : TxnRecord),
    alistLookup s.txns txid = some txn → txn.state = .Reversed →
    (∀ t, Record.txn t ∈ recs → ¬ t.tx = txid) →
    processRecords recs s =
      processRecords (recs.filter (fun rec => ! isDisputeOn txid rec)) s := by
  induction recs with
  | nil =>
    intro s txid txn _ _ _
    rfl
  | cons r rest ih =>
    intro s txid txn h hrev hfresh
    by_cases hd : isDisputeOn txid r = true
    · obtain ⟨d, rfl, hdtx⟩ : ∃ d, r = Record.dispute d ∧ d.tx = txid := by
        cases r with
        | txn t => simp [isDisputeOn] at hd
        | dispute d => exact ⟨d, rfl, by simpa [isDisputeOn] using hd⟩
      have hdl : alistLookup s.txns d.tx = some txn := by rw [hdtx]; exact h
      have hnoop := dispute_on_reversed_noop s d txn hdl hrev
      have hL : processRecords (Record.dispute d :: rest) s = processRecords rest s := by
        simp [processRecords, processRecord, hnoop]
      have hF : (Record.dispute d :: rest).filter (fun rec => ! isDisputeOn txid rec) =
          rest.filter (fun rec => ! isDisputeOn txid rec) := by
        simp only [List.filter]
        rw [show isDisputeOn txid (Record.dispute d) = true from by
          simp [isDisputeOn, hdtx]]
        rfl
      rw [hL, hF]
      exact ih s txid txn h hrev (fun t ht => hfresh t (List.mem_cons_of_mem _ ht))
    · have hF : (r :: rest).filter (fun rec => ! isDisputeOn txid rec) =
          r :: rest.filter (fun rec => ! isDisputeOn txid rec) := by
        simp only [List.filter]
        rw [show isDisputeOn txid r = false from by
          cases hb : isDisputeOn txid r
          · rfl
          · exact absurd hb hd]
        rfl
      rw [hF]
      cases hstep : processRecord s r with
      | error e => simp [processRecords, hstep]
      | ok s1 =>
        have hfresh2 : ∀ t, r = Record.txn t → ¬ t.tx = txid := by
          intro t hrt
          subst hrt
          exact hfresh t (List.mem_cons_self _ _)
        obtain ⟨txn1, h1, hrev1⟩ :=
          reversed_preserved s r s1 txid txn h hrev hfresh2 hstep
        simp only [processRecords, hstep]
        exact ih s1 txid txn1 h1 hrev1 (fun t ht => hfresh t (List.mem_cons_of_mem _ ht))

/-- A state holding a Reversed transaction for a locked client. -/
def revState1 : LedgerState :=
  { txns :=
      [(1, { kind := .Deposit, client := 1, tx := 1, amount := ⟨50000⟩, state := .Reversed })]
    accounts :=
      [(1, { client := 1, available := ⟨0⟩, held := ⟨0⟩, total := ⟨0⟩, locked := true })] }

/-- The Reversed transaction entry of `revState1`. -/
def revTxn1 : TxnRecord :=
  { kind := .Deposit, client := 1, tx := 1, amount := ⟨50000⟩, state := .Reversed }

/-- Witness for C6: a run of further dispute-family records on the
reversed transaction equals the filtered (empty) run. -/
theorem claim_C6_chargeback_terminal_witness :
    processRecords
        [.dispute { kind := .Resolve, client := 1, tx := 1 },
         .dispute { kind := .ChargeBack, client := 1, tx := 1 },
         .dispute { kind := .Dispute, client := 1, tx := 1 }] revState1 =
      processRecords
        ([.dispute { kind := .Resolve, client := 1, tx := 1 },
          .dispute { kind := .ChargeBack, client := 1, tx := 1 },
          .dispute { kind := .Dispute, client := 1, tx := 1 }].filter
            (fun rec => ! isDisputeOn 1 rec)) revState1 :=
  claim_C6_chargeback_terminal
    [.dispute { kind := .Resolve, client := 1, tx := 1 },
     .dispute { kind := .ChargeBack, client := 1, tx := 1 },
     .dispute { kind := .Dispute, client := 1, tx := 1 }]
    revState1 1 revTxn1 rfl rfl (fun t ht => by simp at ht)

/-! ## Missing account on a permitted dispute is fatal (C4) -/

/-- Every entry of the transaction map after a transaction step is an old
entry or the record just processed. -/
theorem processTxn_txns_lookup (s : LedgerState) (t : TxnRecord) (tx : TxnID) (txn : TxnRecord)
    (h : alistLookup (processTxn s t).txns tx = some txn) :
    alistLookup s.txns tx = some txn ∨ (t.tx = tx ∧ txn = t) := by
  cases hk : t.kind with
  | Deposit =>
    cases hacc : alistLookup s.accounts t.client with
    | none =>
      rw [processTxn_dep_none s t hk hacc] at h
      rcases lookup_insert_cases h with ⟨he, hw⟩ | ⟨_, hl⟩
      · exact Or.inr ⟨he, hw⟩
      · exact Or.inl hl
    | some account =>
      cases hl : account.locked with
      | true =>
        rw [processTxn_dep_locked s t account hk hacc hl] at h
        exact Or.inl h
      | false =>
        rw [processTxn_dep_unlocked s t account hk hacc hl] at h
        rcases lookup_insert_cases h with ⟨he, hw⟩ | ⟨_, hl2⟩
        · exact Or.inr ⟨he, hw⟩
        · exact Or.inl hl2
  | Withdrawal =>
    cases hacc : alistLookup s.accounts t.client with
    | none =>
      rw [processTxn_wd_none s t hk hacc] at h
      rcases lookup_insert_cases h with ⟨he, hw⟩ | ⟨_, hl⟩
      · exact Or.inr ⟨he, hw⟩
      · exact Or.inl hl
    | some account =>
      cases hl : account.locked with
      | true =>
        rw [processTxn_wd_locked s t account hk hacc hl] at h
        exact Or.inl h
      | false =>
        rw [processTxn_wd_unlocked s t account hk hacc hl] at h
        rcases lookup_insert_cases h with ⟨he, hw⟩ | ⟨_, hl2⟩
        · exact Or.inr ⟨he, hw⟩
        · exact Or.inl hl2

/-- A present account stays present across a transaction step. -/
theorem processTxn_accounts_mono (s : LedgerState) (t : TxnRecord) (c : ClientID) (a : Account)
    (h : alistLookup s.accounts c = some a) :
    ∃ b, alistLookup (processTxn s t).accounts c = some b := by
  cases hk : t.kind with
  | Deposit =>
    cases hacc : alistLookup s.accounts t.client with
    | none =>
      rw [processTxn_dep_none s t hk hacc]
      rw [alistLookup_insert]
      by_cases hc : t.client = c
      · exact ⟨_, by rw [if_pos hc]⟩
      · exact ⟨a, by rw [if_neg hc]; exact h⟩
    | some account =>
      cases hl : account.locked with
      | true =>
        rw [processTxn_dep_locked s t account hk hacc hl]
        exact ⟨a, h⟩
      | false =>
        rw [processTxn_dep_unlocked s t account hk hacc hl]
        exact lookup_update_of_lookup _ t.client h
  | Withdrawal =>
    cases hacc : alistLookup s.accounts t.client with
    | none =>
      rw [processTxn_wd_none s t hk hacc]
      rw [alistLookup_insert]
      by_cases hc : t.client = c
      · exact ⟨_, by rw [if_pos hc]⟩
      · exact ⟨a, by rw [if_neg hc]; exact h⟩
    | some account =>
      cases hl : account.locked with
      | true =>
        rw [processTxn_wd_locked s t account hk hacc hl]
        exact ⟨a, h⟩
      | false =>
        rw [processTxn_wd_unlocked s t account hk hacc hl]
        exact lookup_update_of_lookup _ t.client h

/-- After a transaction step the record client always has an account. -/
theorem processTxn_accounts_self (s : LedgerState) (t : TxnRecord) :
    ∃ b, alistLookup (processTxn s t).accounts t.client = some b := by
  cases hk : t.kind with
  | Deposit =>
    cases hacc : alistLookup s.accounts t.client with
    | none =>
      rw [processTxn_dep_none s t hk hacc]
      exact ⟨_, by rw [alistLookup_insert, if_pos rfl]⟩
    | some account =>
      cases hl : account.locked with
      | true =>
        rw [processTxn_dep_locked s t account hk hacc hl]
        exact ⟨account, hacc⟩
      | false =>
        rw [processTxn_dep_unlocked s t account hk hacc hl]
        exact lookup_update_of_lookup _ t.client hacc
  | Withdrawal =>
    cases hacc : alistLookup s.accounts t.client with
    | none =>
      rw [processTxn_wd_none s t hk hacc]
      exact ⟨_, by rw [alistLookup_insert, if_pos rfl]⟩
    | some account =>
      cases hl : account.locked with
      | true =>
        rw [processTxn_wd_locked s t account hk hacc hl]
        exact ⟨account, hacc⟩
      | false =>
        rw [processTxn_wd_unlocked s t account hk hacc hl]
        exact lookup_update_of_lookup _ t.client hacc

/-- A successful dispute step only rewrites the state field of an entry:
every entry afterwards corresponds to an entry before with the same
client. -/
theorem processDispute_txns_lookup (s : LedgerState) (d : DisputeRecord) (s1 : LedgerState)
    (hstep : processDispute s d = .ok s1) (tx : TxnID) (txn1 : TxnRecord)
    (h : alistLookup s1.txns tx = some txn1) :
    ∃ txn0, alistLookup s.txns tx = some txn0 ∧ txn0.client = txn1.client := by
  cases htx : alistLookup s.txns d.tx with
  | none =>
    rw [processDispute_unknown s d htx] at hstep
    cases hstep
    exact ⟨txn1, h, rfl⟩
  | some txn =>
    cases hk : d.kind with
    | Dispute =>
      by_cases hst : txn.state = .Undisputed
      · cases hacc : alistLookup s.accounts d.client with
        | none =>
          rw [processDispute_dispute_missing s d txn htx hk hst hacc] at hstep
          cases hstep
        | some account =>
          rw [processDispute_dispute_apply s d txn account htx hk hst hacc] at hstep
          cases hstep
          rcases lookup_update_cases h with ⟨_, w, hw, rfl⟩ | ⟨_, hold2⟩
          · exact ⟨w, hw, rfl⟩
          · exact ⟨txn1, hold2, rfl⟩
      · rw [processDispute_dispute_noop s d txn htx hk hst] at hstep
        cases hstep
        exact ⟨txn1, h, rfl⟩
    | Resolve =>
      by_cases hst : txn.state = .Disputed
      · cases hacc : alistLookup s.accounts d.client with
        | none =>
          rw [processDispute_resolve_missing s d txn htx hk hst hacc] at hstep
          cases hstep
        | some account =>
          rw [processDispute_resolve_apply s d txn account htx hk hst hacc] at hstep
          cases hstep
          rcases lookup_update_cases h with ⟨_, w, hw, rfl⟩ | ⟨_, hold2⟩
          · exact ⟨w, hw, rfl⟩
          · exact ⟨txn1, hold2, rfl⟩
      · rw [processDispute_resolve_noop s d txn htx hk hst] at hstep
        cases hstep
        exact ⟨txn1, h, rfl⟩
    | ChargeBack =>
      by_cases hst : txn.state = .Disputed
      · cases hacc : alistLookup s.accounts d.client with
        | none =>
          rw [processDispute_cb_missing s d txn htx hk hst hacc] at hstep
          cases hstep
        | some account =>
          rw [processDispute_cb_apply s d txn account htx hk hst hacc] at hstep
          cases hstep
          rcases lookup_update_cases h with ⟨_, w, hw, rfl⟩ | ⟨_, hold2⟩
          · exact ⟨w, hw, rfl⟩
          · exact ⟨txn1, hold2, rfl⟩
      · rw [processDispute_cb_noop s d txn htx hk hst] at hstep
        cases hstep
        exact ⟨txn1, h, rfl⟩

/-- A present account stays present across a successful dispute step. -/
theorem processDispute_accounts_mono (s : LedgerState) (d : DisputeRecord) (s1 : LedgerState)
    (hstep : processDispute s d = .ok s1) (c : ClientID) (a : Account)
    (h : alistLookup s.accounts c = some a) :
    ∃ b, alistLookup s1.accounts c = some b := by
  cases htx : alistLookup s.txns d.tx with
  | none =>
    rw [processDispute_unknown s d htx] at hstep
    cases hstep
    exact ⟨a, h⟩
  | some txn =>
    cases hk : d.kind with
    | Dispute =>
      by_cases hst : txn.state = .Undisputed
      · cases hacc : alistLookup s.accounts d.client with
        | none =>
          rw [processDispute_dispute_missing s d txn htx hk hst hacc] at hstep
          cases hstep
        | some account =>
          rw [processDispute_dispute_apply s d txn account htx hk hst hacc] at hstep
          cases hstep
          exact lookup_update_of_lookup _ d.client h
      · rw [processDispute_dispute_noop s d txn htx hk hst] at hstep
        cases hstep
        exact ⟨a, h⟩
    | Resolve =>
      by_cases hst : txn.state = .Disputed
      · cases hacc : alistLookup s.accounts d.client with
        | none =>
          rw [processDispute_resolve_missing s d txn htx hk hst hacc] at hstep
          cases hstep
        | some account =>
          rw [processDispute_resolve_apply s d txn account htx hk hst hacc] at hstep
          cases hstep
          exact lookup_update_of_lookup _ d.client h
      · rw [processDispute_resolve_noop s d txn htx hk hst] at hstep
        cases hstep
        exact ⟨a, h⟩
    | ChargeBack =>
      by_cases hst : txn.state = .Disputed
      · cases hacc : alistLookup s.accounts d.client with
        | none =>
          rw [processDispute_cb_missing s d txn htx hk hst hacc] at hstep
          cases hstep
        | some account =>
          rw [processDispute_cb_apply s d txn account htx hk hst hacc] at hstep
          cases hstep
          exact lookup_update_of_lookup _ d.client h
      · rw [processDispute_cb_noop s d txn htx hk hst] at hstep
        cases hstep
        exact ⟨a, h⟩

/-- When every dispute-family record of the input shares its client id
with every transaction record carrying the same tx id, a run never hits
the fatal missing-account branch. -/
theorem noPanic_aux (recs : List Record) :
    ∀ s,
    (∀ tx txn, alistLookup s.txns tx = some txn →
      ∃ a, alistLookup s.accounts txn.client = some a) →
    (∀ tx txn d, alistLookup s.txns tx = some txn → Record.dispute d ∈ recs →
      d.tx = tx → d.client = txn.client) →
    (∀ d t, Record.dispute d ∈ recs → Record.txn t ∈ recs → t.tx = d.tx →
      t.client = d.client) →
    ∃ s2, processRecords recs s = .ok s2 := by
  induction recs with
  | nil =>
    intro s _ _ _
    exact ⟨s, rfl⟩
  | cons r rest ih =>
    intro s H1 H2 H3
    cases r with
    | txn t =>
      have hrw : processRecords (Record.txn t :: rest) s =
          processRecords rest (processTxn s t) := by
        simp [processRecords, processRecord]
      rw [hrw]
      apply ih (processTxn s t)
      · intro tx txn hlk
        rcases processTxn_txns_lookup s t tx txn hlk with hold2 | ⟨hteq, hw⟩
        · obtain ⟨a, ha⟩ := H1 tx txn hold2
          exact processTxn_accounts_mono s t txn.client a ha
        · rw [hw]
          exact processTxn_accounts_self s t
      · intro tx txn d hlk hd hdtx
        rcases processTxn_txns_lookup s t tx txn hlk with hold2 | ⟨hteq, hw⟩
        · exact H2 tx txn d hold2 (List.mem_cons_of_mem _ hd) hdtx
        · rw [hw]
          exact (H3 d t (List.mem_cons_of_mem _ hd) (List.mem_cons_self _ _)
            (hteq.trans hdtx.symm)).symm
      · intro d t2 hd ht2 htx2
        exact H3 d t2 (List.mem_cons_of_mem _ hd) (List.mem_cons_of_mem _ ht2) htx2
    | dispute d =>
      have hstep : ∃ s1, processDispute s d = .ok s1 := by
        cases htx : alistLookup s.txns d.tx with
        | none => exact ⟨s, processDispute_unknown s d htx⟩
        | some txn =>
          have hdc : d.client = txn.client :=
            H2 d.tx txn d htx (List.mem_cons_self _ _) rfl
          obtain ⟨a, ha⟩ := H1 d.tx txn htx
          have ha2 : alistLookup s.accounts d.client = some a := by
            rw [hdc]
            exact ha
          cases hk : d.kind with
          | Dispute =>
            by_cases hst : txn.state = .Undisputed
            · exact ⟨_, processDispute_dispute_apply s d txn a htx hk hst ha2⟩
            · exact ⟨s, processDispute_dispute_noop s d txn htx hk hst⟩
          | Resolve =>
            by_cases hst : txn.state = .Disputed
            · exact ⟨_, processDispute_resolve_apply s d txn a htx hk hst ha2⟩
            · exact ⟨s, processDispute_resolve_noop s d txn htx hk hst⟩
          | ChargeBack =>
            by_cases hst : txn.state = .Disputed
            · exact ⟨_, processDispute_cb_apply s d txn a htx hk hst ha2⟩
            · exact ⟨s, processDispute_cb_noop s d txn htx hk hst⟩
      obtain ⟨s1, hs1⟩ := hstep
      have hrw : processRecords (Record.dispute d :: rest) s = processRecords rest s1 := by
        simp [processRecords, processRecord, hs1]
      rw [hrw]
      apply ih s1
      · intro tx txn hlk
        obtain ⟨txn0, h0, hcl⟩ := processDispute_txns_lookup s d s1 hs1 tx txn hlk
        obtain ⟨a, ha⟩ := H1 tx txn0 h0
        have ha2 : alistLookup s.accounts txn.client = some a := by
          rw [← hcl]
          exact ha
        exact processDispute_accounts_mono s d s1 hs1 txn.client a ha2
      · intro tx txn d2 hlk hd2 hdtx
        obtain ⟨txn0, h0, hcl⟩ := processDispute_txns_lookup s d s1 hs1 tx txn hlk
        have hm := H2 tx txn0 d2 h0 (List.mem_cons_of_mem _ hd2) hdtx
        rw [hcl] at hm
        exact hm
      · intro d2 t2 hd2 ht2 htx2
        exact H3 d2 t2 (List.mem_cons_of_mem _ hd2) (List.mem_cons_of_mem _ ht2) htx2

/-- C4: a dispute-family record whose referenced transaction is present
in a state that permits the operation, but whose own client field names a
client without an account, makes processing abort with the fatal
missing-account error rather than skip the record; conversely, when every
dispute-family record of the input shares its client id with every
transaction record carrying the same tx id, a whole run from the empty
state never aborts. -/
theorem claim_C4_missing_account_fatal :
    (∀ s d txn, alistLookup s.txns d.tx = some txn → permitsKind d.kind txn.state →
      alistLookup s.accounts d.client = none →
      processDispute s d = .error .missingAccount) ∧
    (∀ recs, (∀ d t, Record.dispute d ∈ recs → Record.txn t ∈ recs → t.tx = d.tx →
        t.client = d.client) →
      ∃ s2, processRecords recs initState = .ok s2) := by
  constructor
  · intro s d txn h hperm hacc
    cases hk : d.kind with
    | Dispute =>
      rw [hk] at hperm
      exact processDispute_dispute_missing s d txn h hk hperm hacc
    | Resolve =>
      rw [hk] at hperm
      exact processDispute_resolve_missing s d txn h hk hperm hacc
    | ChargeBack =>
      rw [hk] at hperm
      exact processDispute_cb_missing s d txn h hk hperm hacc
  · intro recs H3
    apply noPanic_aux recs initState
    · intro tx txn h
      exact absurd h (by simp [initState, alistLookup])
    · intro tx txn d h
      exact absurd h (by simp [initState, alistLookup])
    · exact H3

/-- A state holding a transaction whose client has no account: it can
only be produced by structurally malformed input, and a dispute on it in
a permitted state panics. -/
def orphanState : LedgerState :=
  { txns :=
      [(1, { kind := .Deposit, client := 1, tx := 1, amount := ⟨50000⟩, state := .Undisputed })]
    accounts := [] }

/-- A dispute naming a client (5) that has no account. -/
def mismatchDispute : DisputeRecord := { kind := .Dispute, client := 5, tx := 1 }

/-- The transaction entry of `orphanState`. -/
def orphanTxn : TxnRecord :=
  { kind := .Deposit, client := 1, tx := 1, amount := ⟨50000⟩, state := .Undisputed }

/-- A matching two-record input: the dispute carries the client id of the
deposit it references. -/
def matchedRun : List Record :=
  [.txn { kind := .Deposit, client := 1, tx := 1, amount := ⟨50000⟩, state := .Undisputed },
   .dispute { kind := .Dispute, client := 1, tx := 1 }]

/-- Witness for C4: the fatal error fires at the concrete mismatched
input, and the concrete matched run completes. -/
theorem claim_C4_missing_account_fatal_witness :
    processDispute orphanState mismatchDispute = .error .missingAccount ∧
      ∃ s2, processRecords matchedRun initState = .ok s2 :=
  ⟨claim_C4_missing_account_fatal.1 orphanState mismatchDispute orphanTxn rfl rfl rfl,
    claim_C4_missing_account_fatal.2 matchedRun (by
      intro d t hd ht htx
      simp only [matchedRun, List.mem_cons, List.not_mem_nil, or_false] at hd ht
      rcases hd with hd | hd
      · exact Record.noConfusion hd
      · rcases ht with ht | ht
        · injection hd with hd2
          injection ht with ht2
          subst hd2
          subst ht2
          rfl
        · exact Record.noConfusion ht)⟩

/-! ## Amount constructor and round trip (C3, C5) -/

/-- C3: evaluation of the code against the claim.  `Amount::try_from_f64`
as written never returns an error: `(value * 10000f64).trunc() as i64`
followed by an unconditional `Ok`.  In particular a NaN input is accepted
and, by the saturating Rust float-to-int cast, stored as the amount 0 —
the `InvalidAmount` failure the claim (and the function doc comment in
the source) promises is never raised. -/
theorem claim_C3_never_fails :
    (∀ v, ∃ a, Amount.try_from_f64 v = .ok a) ∧
      Amount.try_from_f64 F64.nan = .ok ⟨0⟩ :=
  ⟨fun _ => ⟨_, rfl⟩, rfl⟩

@[simp]
theorem truncTowardZero_intCast (n : Int) : truncTowardZero ((n : Int) : ℚ) = n := by
  simp [truncTowardZero]

theorem truncTowardZero_eq_floor (q : ℚ) (h : 0 ≤ q) : truncTowardZero q = ⌊q⌋ := by
  rw [truncTowardZero, Rat.floor_def]
  exact Int.tdiv_eq_ediv (Rat.num_nonneg.mpr h) (Int.natCast_nonneg _)

/-- C5 (amended): for every finite decimal x whose value scaled by 10^4
and truncated fits in the i64 range, `from_decimal(x).to_decimal()`
equals x truncated toward zero at 4 fractional digits; in particular
5.00009999 round-trips to 5.0.  Outside that range the saturating cast
clamps and the round trip fails. -/
theorem claim_C5_roundtrip_amended :
    (∀ q : ℚ, I64MIN ≤ truncTowardZero (q * (scaleFactor : ℚ)) →
      truncTowardZero (q * (scaleFactor : ℚ)) ≤ I64MAX →
      ∃ a, Amount.try_from_f64 (.finite q) = .ok a ∧
        a.as_f64 = .finite (specTruncatedAt4 q)) ∧
    (∃ a, Amount.try_from_f64 (.finite (500009999 / 100000000 : ℚ)) = .ok a ∧
      a.as_f64 = .finite 5) := by
  have hgen : ∀ q : ℚ, I64MIN ≤ truncTowardZero (q * (scaleFactor : ℚ)) →
      truncTowardZero (q * (scaleFactor : ℚ)) ≤ I64MAX →
      ∃ a, Amount.try_from_f64 (.finite q) = .ok a ∧
        a.as_f64 = .finite (specTruncatedAt4 q) := by
    intro q h1 h2
    refine ⟨_, rfl, ?_⟩
    simp only [Amount.try_from_f64, F64.mulScale, F64.trunc, F64.castToI64, Amount.as_f64,
      specTruncatedAt4, truncTowardZero_intCast]
    rw [if_neg (not_lt.mpr h1), if_neg (not_lt.mpr h2)]
  refine ⟨hgen, ?_⟩
  have htr : truncTowardZero ((500009999 / 100000000 : ℚ) * (scaleFactor : ℚ)) = 50000 := by
    have hq : (500009999 / 100000000 : ℚ) * (scaleFactor : ℚ) = (500009999 : ℚ) / 10000 := by
      norm_num [scaleFactor, DECIMALS_PRECISION]
    rw [hq, truncTowardZero_eq_floor _ (by norm_num)]
    norm_num
  obtain ⟨a, ha, hb⟩ := hgen (500009999 / 100000000 : ℚ)
    (by rw [htr]; norm_num [I64MIN]) (by rw [htr]; norm_num [I64MAX])
  refine ⟨a, ha, ?_⟩
  rw [hb]
  have hs : specTruncatedAt4 (500009999 / 100000000 : ℚ) = 5 := by
    rw [specTruncatedAt4, htr]
    norm_num [scaleFactor, DECIMALS_PRECISION]
  rw [hs]

/-- C5 counterexample: at the finite decimal 10^15 the scaled truncation
10^19 exceeds the i64 range, the cast saturates to the i64 maximum, and
the round trip returns 922337203685477.5807 instead of 10^15 (which is
its own truncation at 4 fractional digits) — refuting the claim for all
finite decimals. -/
theorem claim_C5_counterexample :
    Amount.try_from_f64 (.finite ((10 : ℚ) ^ 15)) = .ok ⟨I64MAX⟩ ∧
      Amount.as_f64 ⟨I64MAX⟩ ≠ .finite (specTruncatedAt4 ((10 : ℚ) ^ 15)) ∧
      specTruncatedAt4 ((10 : ℚ) ^ 15) = (10 : ℚ) ^ 15 := by
  have hmul : ((10 : ℚ) ^ 15) * (scaleFactor : ℚ) = (((10 : Int) ^ 19 : Int) : ℚ) := by
    norm_num [scaleFactor, DECIMALS_PRECISION]
  have htr : truncTowardZero (((10 : ℚ) ^ 15) * (scaleFactor : ℚ)) = (10 : Int) ^ 19 := by
    rw [hmul, truncTowardZero_intCast]
  refine ⟨?_, ?_, ?_⟩
  · simp only [Amount.try_from_f64, F64.mulScale, F64.trunc, F64.castToI64, htr,
      truncTowardZero_intCast]
    rw [if_neg (by norm_num [I64MIN]), if_pos (by norm_num [I64MAX])]
  · simp only [Amount.as_f64, specTruncatedAt4, htr]
    intro hcon
    rw [F64.finite.injEq] at hcon
    norm_num [I64MAX, scaleFactor, DECIMALS_PRECISION] at hcon
  · rw [specTruncatedAt4, htr]
    norm_num [scaleFactor, DECIMALS_PRECISION]

/-- Witness for the amended C5 at the in-range decimal 7. -/
theorem claim_C5_roundtrip_amended_witness :
    (I64MIN ≤ truncTowardZero ((7 : ℚ) * (scaleFactor : ℚ)) ∧
      truncTowardZero ((7 : ℚ) * (scaleFactor : ℚ)) ≤ I64MAX) ∧
    ∃ a, Amount.try_from_f64 (.finite (7 : ℚ)) = .ok a ∧
      a.as_f64 = .finite (specTruncatedAt4 (7 : ℚ)) := by
  have htr : truncTowardZero ((7 : ℚ) * (scaleFactor : ℚ)) = 70000 := by
    rw [show (7 : ℚ) * (scaleFactor : ℚ) = ((70000 : Int) : ℚ) by
      norm_num [scaleFactor, DECIMALS_PRECISION]]
    exact truncTowardZero_intCast 70000
  have h1 : I64MIN ≤ truncTowardZero ((7 : ℚ) * (scaleFactor : ℚ)) := by
    rw [htr]
    norm_num [I64MIN]
  have h2 : truncTowardZero ((7 : ℚ) * (scaleFactor : ℚ)) ≤ I64MAX := by
    rw [htr]
    norm_num [I64MAX]
  exact ⟨⟨h1, h2⟩, claim_C5_roundtrip_amended.1 7 h1 h2⟩
